import Mathlib

set_option autoImplicit false

/-!
Shallow embedding of the storage package of medhir/yaml-api: the text
normalization pipeline (tokenize, toLowercase, removeCommonWords, stem),
the per-field inverted index (indexField, AddMetadata), and the
AND-intersection query engine (getResultsByToken, matchAllTerms,
intersection, retrieveDocuments, LookupMetadata).

Modelling conventions:
- A `*Metadata` pointer is modelled by a natural number `Doc`; Go pointer
  equality is `Doc` equality.
- A Go `map[string][]*Metadata` is modelled as a total function
  `String → List Doc` whose default value is `[]`, matching Go's nil-slice
  read of a missing key (the code's explicit `field[token] = []` init of a
  missing key is a no-op under this model).
- The query-side `resultSet` map is modelled as an association list in
  insertion order, since the engine also iterates its key set.  Go's map
  iteration order is unspecified; every verified statement below is either
  about a single key or is insensitive to key order.
- The call `snowball.Stem(token, "english", true)` reaches into the
  third-party dependency github.com/kljensen/snowball, whose source is not
  part of this repository; it is kept as an uninterpreted fallible
  parameter `Stemmer` of the whole development.
- Go's `unicode.IsLetter`/`unicode.IsNumber` and `strings.ToLower` are
  modelled by their ASCII restrictions (`Char.isAlpha`, `Char.isDigit`,
  `Char.toLower`); all concrete inputs appearing below are ASCII.
-/

namespace YamlApi

/-- A reference to a stored `Metadata` value: models the Go `*Metadata`
pointer, with pointer identity modelled as `Nat` equality. -/
abbrev Doc := Nat

/-- Decidable equality of `Except` results, used to evaluate the embedded
functions on concrete inputs. -/
instance {ε α : Type} [DecidableEq ε] [DecidableEq α] : DecidableEq (Except ε α) := fun a b =>
  match a, b with
  | .ok x, .ok y =>
    if h : x = y then .isTrue (by rw [h]) else .isFalse (by intro hc; cases hc; exact h rfl)
  | .error x, .error y =>
    if h : x = y then .isTrue (by rw [h]) else .isFalse (by intro hc; cases hc; exact h rfl)
  | .ok _, .error _ => .isFalse (by intro hc; cases hc)
  | .error _, .ok _ => .isFalse (by intro hc; cases hc)

/-- Models `map[string][]*Metadata` with Go's nil-slice default read. -/
abbrev PostingStore := String → List Doc

/-- A `map[string][]*Metadata{}` literal: every key reads as `[]`. -/
def emptyStore : PostingStore := fun _ => []

/-- Go map assignment `field[k] = v`. -/
def storeSet (field : PostingStore) (k : String) (v : List Doc) : PostingStore :=
  fun k2 => if k2 = k then v else field k2

/-- The external stemmer `snowball.Stem(·, "english", true)`, uninterpreted
because the snowball library is a dependency, not repository code. -/
abbrev Stemmer := String → Except String String

/-- Go `unicode.IsLetter(r) || unicode.IsNumber(r)`, ASCII restriction. -/
def isAlphaNum (r : Char) : Bool := r.isAlpha || r.isDigit

/-- Worker for `tokenize`: walks the character list accumulating the current
run of letter/digit characters (in reverse); a non-letter/non-digit
character closes the run, and empty runs are not emitted.  This is
`strings.FieldsFunc(text, fun r => !IsLetter r && !IsNumber r)`. -/
def tokenizeAux : List Char → List Char → List String
  | [], acc => if acc = [] then [] else [String.mk acc.reverse]
  | c :: cs, acc =>
    if isAlphaNum c then tokenizeAux cs (c :: acc)
    else if acc = [] then tokenizeAux cs []
    else String.mk acc.reverse :: tokenizeAux cs []

/-- `tokenize` from index.go: split on every character that is neither a
letter nor a number. -/
def tokenize (text : String) : List String := tokenizeAux text.data []

/-- Go `strings.ToLower`, modelled character by character (ASCII
restriction of the Unicode case mapping). -/
def toLowerString (s : String) : String := String.mk (s.data.map Char.toLower)

/-- `toLowercase` from index.go: lowercase every token. -/
def toLowercase (tokens : List String) : List String :=
  tokens.map (fun token => toLowerString token)

/-- The `commonWords` map literal of `removeCommonWords` ("Top 15 words
(OEC rank)"), transcribed verbatim — note the capitalized entry `"I"`. -/
def commonWords : List String :=
  ["the", "be", "to", "of", "and", "a", "in", "that", "have", "I", "it",
   "for", "not", "on", "with"]

/-- `removeCommonWords` from index.go: keep the tokens that are not keys of
the `commonWords` map. -/
def removeCommonWords (tokens : List String) : List String :=
  tokens.filter (fun token => !(commonWords.contains token))

/-- `stem` from index.go: stem every token, aborting the whole call with a
wrapped error as soon as one token fails to stem. -/
def stem (stemmer : Stemmer) : List String → Except String (List String)
  | [] => .ok []
  | token :: rest =>
    match stemmer token with
    | .error e => .error ("unable to stem token: " ++ e)
    | .ok stemmedToken =>
      match stem stemmer rest with
      | .error e => .error e
      | .ok stemmedRest => .ok (stemmedToken :: stemmedRest)

/-- `processText` from index.go: tokenize, lowercase, drop common words,
then stem (the only fallible step). -/
def processText (stemmer : Stemmer) (text : String) : Except String (List String) :=
  stem stemmer (removeCommonWords (toLowercase (tokenize text)))

/-- One iteration of the token loop in `indexField`: append `metadata` to
`field[token]` unless that list is non-empty and its last element already
is this exact document reference. -/
def indexToken (field : PostingStore) (metadata : Doc) (token : String) : PostingStore :=
  let cur := field token
  if cur.length > 0 ∧ cur.getLast? = some metadata then field
  else storeSet field token (cur ++ [metadata])

/-- `indexField` from index.go.  The store is threaded explicitly (Go
mutates the map in place and returns only the error), so the partial state
left behind by a failing call is observable: on a `processText` error the
store is returned unchanged. -/
def indexField (stemmer : Stemmer) (text : String) (field : PostingStore) (metadata : Doc)
    (tokenizeField : Bool) : PostingStore × Option String :=
  if tokenizeField then
    match processText stemmer text with
    | .error e => (field, some e)
    | .ok tokens => (tokens.foldl (fun fld token => indexToken fld metadata token) field, none)
  else
    (storeSet field text (field text ++ [metadata]), none)

/-- The `index` struct: one posting store per searchable attribute. -/
structure Index where
  title : PostingStore
  version : PostingStore
  maintainerName : PostingStore
  maintainerEmail : PostingStore
  company : PostingStore
  website : PostingStore
  source : PostingStore
  license : PostingStore
  description : PostingStore

/-- The `Maintainer` struct. -/
structure Maintainer where
  Name : String
  Email : String

/-- The `Metadata` struct (field values; the reference to it is a `Doc`). -/
structure Metadata where
  Title : String
  Version : String
  Maintainers : List Maintainer
  Company : String
  Website : String
  Source : String
  License : String
  Description : String

/-- `NewStorage` from storage.go: all nine posting stores start empty. -/
def NewStorage : Index :=
  { title := emptyStore, version := emptyStore, maintainerName := emptyStore,
    maintainerEmail := emptyStore, company := emptyStore, website := emptyStore,
    source := emptyStore, license := emptyStore, description := emptyStore }

/-- The maintainer loop of `AddMetadata`: index each maintainer's name and
email, returning early on the first error and keeping the partially
updated stores. -/
def indexMaintainers (stemmer : Stemmer) (maintainers : List Maintainer) (metadata : Doc)
    (names emails : PostingStore) : PostingStore × PostingStore × Option String :=
  match maintainers with
  | [] => (names, emails, none)
  | maintainer :: rest =>
    let r1 := indexField stemmer maintainer.Name names metadata true
    match r1.2 with
    | some e => (r1.1, emails, some e)
    | none =>
      let r2 := indexField stemmer maintainer.Email emails metadata true
      match r2.2 with
      | some e => (r1.1, r2.1, some e)
      | none => indexMaintainers stemmer rest metadata r1.1 r2.1

/-- `AddMetadata` from storage.go: index every attribute value in order
(title, version, maintainers, company, website, source, license,
description), returning at the first error.  The index is threaded
explicitly, so the stores already written before a failing step keep
their new entries, exactly as the in-place Go mutation does. -/
def AddMetadata (stemmer : Stemmer) (metadata : Metadata) (ref : Doc) (s : Index) :
    Index × Option String :=
  let r1 := indexField stemmer metadata.Title s.title ref true
  let s1 := { s with title := r1.1 }
  match r1.2 with
  | some e => (s1, some e)
  | none =>
    let r2 := indexField stemmer metadata.Version s1.version ref false
    let s2 := { s1 with version := r2.1 }
    match r2.2 with
    | some e => (s2, some e)
    | none =>
      let r3 := indexMaintainers stemmer metadata.Maintainers ref s2.maintainerName s2.maintainerEmail
      let s3 := { s2 with maintainerName := r3.1, maintainerEmail := r3.2.1 }
      match r3.2.2 with
      | some e => (s3, some e)
      | none =>
        let r4 := indexField stemmer metadata.Company s3.company ref true
        let s4 := { s3 with company := r4.1 }
        match r4.2 with
        | some e => (s4, some e)
        | none =>
          let r5 := indexField stemmer metadata.Website s4.website ref true
          let s5 := { s4 with website := r5.1 }
          match r5.2 with
          | some e => (s5, some e)
          | none =>
            let r6 := indexField stemmer metadata.Source s5.source ref true
            let s6 := { s5 with source := r6.1 }
            match r6.2 with
            | some e => (s6, some e)
            | none =>
              let r7 := indexField stemmer metadata.License s6.license ref true
              let s7 := { s6 with license := r7.1 }
              match r7.2 with
              | some e => (s7, some e)
              | none =>
                let r8 := indexField stemmer metadata.Description s7.description ref true
                let s8 := { s7 with description := r8.1 }
                match r8.2 with
                | some e => (s8, some e)
                | none => (s8, none)

/-- The query-side `resultSet` map, modelled as an association list in
insertion order (Go iterates this map's keys in unspecified order; all
statements below are key-order insensitive). -/
abbrev ResultSet := List (String × List Doc)

/-- Go map read `resultSet[k]` with nil-slice default. -/
def mapGet (resultSet : ResultSet) (k : String) : List Doc :=
  match resultSet with
  | [] => []
  | (k0, v0) :: rest => if k0 = k then v0 else mapGet rest k

/-- Go map assignment `resultSet[k] = v`. -/
def mapSet (resultSet : ResultSet) (k : String) (v : List Doc) : ResultSet :=
  match resultSet with
  | [] => [(k, v)]
  | (k0, v0) :: rest => if k0 = k then (k0, v) :: rest else (k0, v0) :: mapSet rest k v

/-- `intersection` from index.go: keep the elements of `slice2` (in order)
that also occur in `slice1`, comparing by document reference identity. -/
def intersection (slice1 slice2 : List Doc) : List Doc :=
  slice2.filter (fun md => slice1.contains md)

/-- `matchAllTerms` from index.go: zero keys give the empty list, one key
gives that key's list, and two or more keys give the left-to-right
pairwise intersection of the keys' lists. -/
def matchAllTerms (resultSet : ResultSet) : List Doc :=
  match resultSet with
  | [] => []
  | [(k0, v0)] => mapGet [(k0, v0)] k0
  | (k0, v0) :: (k1, v1) :: rest =>
    let resultSet := (k0, v0) :: (k1, v1) :: rest
    (rest.map Prod.fst).foldl
      (fun result k => intersection result (mapGet resultSet k))
      (intersection (mapGet resultSet k0) (mapGet resultSet k1))

/-- `getResultsByToken` from storage.go: normalize the search input, then
set `resultSet[token]` to the field's posting list for every token (the
Go code resets the entry to the empty slice and then extends it with
`field[token]`). -/
def getResultsByToken (stemmer : Stemmer) (searchInput : String) (resultSet : ResultSet)
    (field : PostingStore) : Except String ResultSet :=
  match processText stemmer searchInput with
  | .error e => .error e
  | .ok tokens =>
    .ok (tokens.foldl (fun rs token => mapSet rs token (field token)) resultSet)

/-- The switch of `retrieveDocuments`: resolve the attribute name to its
posting store and populate the result set; the version attribute uses the
raw search input verbatim as the single key, and an unrecognized
attribute is a hard error. -/
def retrieveResultSet (stemmer : Stemmer) (s : Index) (attr : String) (searchInput : String) :
    Except String ResultSet :=
  if attr = "title" then getResultsByToken stemmer searchInput [] s.title
  else if attr = "version" then
    .ok (mapSet [] searchInput (mapGet [] searchInput ++ s.version searchInput))
  else if attr = "maintainer_name" then getResultsByToken stemmer searchInput [] s.maintainerName
  else if attr = "maintainer_email" then getResultsByToken stemmer searchInput [] s.maintainerEmail
  else if attr = "company" then getResultsByToken stemmer searchInput [] s.company
  else if attr = "website" then getResultsByToken stemmer searchInput [] s.website
  else if attr = "source" then getResultsByToken stemmer searchInput [] s.source
  else if attr = "license" then getResultsByToken stemmer searchInput [] s.license
  else if attr = "description" then getResultsByToken stemmer searchInput [] s.description
  else .error "cannot retrieve documents by unknown attribute type"

/-- `retrieveDocuments` from storage.go: populate the result set for one
attribute, then reduce it to the documents matching all search terms. -/
def retrieveDocuments (stemmer : Stemmer) (s : Index) (attr : String) (searchInput : String) :
    Except String (List Doc) :=
  match retrieveResultSet stemmer s attr searchInput with
  | .error e => .error e
  | .ok resultSet => .ok (matchAllTerms resultSet)

/-- The loop of `LookupMetadata`: one `retrieveDocuments` call per
attribute/value pair, storing each result under its attribute name and
returning early on the first error. -/
def lookupResultSet (stemmer : Stemmer) (s : Index) :
    List (String × String) → ResultSet → Except String ResultSet
  | [], resultSet => .ok resultSet
  | (k, v) :: rest, resultSet =>
    match retrieveDocuments stemmer s k v with
    | .error e => .error e
    | .ok result => lookupResultSet stemmer s rest (mapSet resultSet k result)

/-- `LookupMetadata` from storage.go: per-attribute searches reduced by the
same all-terms intersection.  The Go map of attribute/value pairs is
modelled as an association list (its keys are distinct in Go; iteration
order is unspecified and the verified statements are order insensitive). -/
def LookupMetadata (stemmer : Stemmer) (s : Index) (attrsAndValues : List (String × String)) :
    Except String (List Doc) :=
  match lookupResultSet stemmer s attrsAndValues [] with
  | .error e => .error e
  | .ok resultSet => .ok (matchAllTerms resultSet)

/-- The nine attribute names recognized by the `retrieveDocuments` switch. -/
def recognizedAttrs : List String :=
  ["title", "version", "maintainer_name", "maintainer_email", "company",
   "website", "source", "license", "description"]

/-! ### Membership lemmas for the intersection engine -/

theorem mem_intersection {d : Doc} {a b : List Doc} :
    d ∈ intersection a b ↔ d ∈ a ∧ d ∈ b := by
  simp [intersection, List.mem_filter, and_comm]

theorem mem_foldl_inter (rs : ResultSet) (d : Doc) :
    ∀ (ks : List String) (init : List Doc),
      d ∈ ks.foldl (fun result k => intersection result (mapGet rs k)) init ↔
        d ∈ init ∧ ∀ k ∈ ks, d ∈ mapGet rs k := by
  intro ks
  induction ks with
  | nil => intro init; simp
  | cons k rest ih =>
    intro init
    simp only [List.foldl_cons, ih, mem_intersection, List.mem_cons]
    constructor
    · rintro ⟨⟨h1, h2⟩, h3⟩
      exact ⟨h1, fun k2 hk2 => by rcases hk2 with rfl | hk2; exact h2; exact h3 k2 hk2⟩
    · rintro ⟨h1, h2⟩
      exact ⟨⟨h1, h2 k (Or.inl rfl)⟩, fun k2 hk2 => h2 k2 (Or.inr hk2)⟩

/-- A document is in the reduced result set exactly when the result set is
non-empty and the document occurs under every key (key-order
insensitive, so Go's unspecified map iteration order is harmless). -/
theorem mem_matchAllTerms (rs : ResultSet) (d : Doc) :
    d ∈ matchAllTerms rs ↔ rs ≠ [] ∧ ∀ k ∈ rs.map Prod.fst, d ∈ mapGet rs k := by
  match rs with
  | [] => simp [matchAllTerms]
  | [(k0, v0)] => simp [matchAllTerms]
  | (k0, v0) :: (k1, v1) :: rest =>
    simp only [matchAllTerms, mem_foldl_inter, mem_intersection, List.map_cons, List.mem_cons,
      ne_eq, reduceCtorEq, not_false_eq_true, true_and, List.mem_map]
    constructor
    · rintro ⟨⟨h0, h1⟩, h2⟩
      rintro k (rfl | rfl | ⟨p, hp, rfl⟩)
      · exact h0
      · exact h1
      · exact h2 _ ⟨p, hp, rfl⟩
    · intro h
      refine ⟨⟨h _ (Or.inl rfl), h _ (Or.inr (Or.inl rfl))⟩, ?_⟩
      rintro k ⟨p, hp, rfl⟩
      exact h _ (Or.inr (Or.inr ⟨p, hp, rfl⟩))

/-! ### Association-map lemmas -/

theorem mapSet_of_not_mem {rs : ResultSet} {k : String} (v : List Doc)
    (h : k ∉ rs.map Prod.fst) : mapSet rs k v = rs ++ [(k, v)] := by
  induction rs with
  | nil => rfl
  | cons p rest ih =>
    simp only [List.map_cons, List.mem_cons, not_or] at h
    cases p with
    | mk k0 v0 =>
      simp only [mapSet, List.cons_append]
      rw [if_neg (fun hk => h.1 hk.symm), ih h.2]

theorem mapGet_of_nodup {rs : ResultSet} (hnd : (rs.map Prod.fst).Nodup)
    {k : String} {v : List Doc} (hm : (k, v) ∈ rs) : mapGet rs k = v := by
  induction rs with
  | nil => cases hm
  | cons p rest ih =>
    cases p with
    | mk k0 v0 =>
      simp only [List.map_cons, List.nodup_cons] at hnd
      rcases List.mem_cons.mp hm with h | h
      · cases h
        simp [mapGet]
      · have hk : k0 ≠ k := fun he => hnd.1 (he ▸ (List.mem_map.mpr ⟨(k, v), h, rfl⟩))
        simp only [mapGet, if_neg hk]
        exact ih hnd.2 h

theorem mapGet_singleton (k : String) (v : List Doc) : mapGet [(k, v)] k = v := by
  simp [mapGet]

theorem matchAllTerms_singleton (k : String) (v : List Doc) :
    matchAllTerms [(k, v)] = v := by
  simp [matchAllTerms, mapGet]

/-! ### Indexing lemmas -/

theorem mem_of_getLast?_eq {l : List Doc} {a : Doc} (h : l.getLast? = some a) : a ∈ l := by
  rcases List.mem_getLast?_eq_getLast (by simp [h] : a ∈ l.getLast?) with ⟨hne, rfl⟩
  exact List.getLast_mem hne

theorem mem_indexToken_mono {field : PostingStore} {d x : Doc} {tok k : String}
    (h : x ∈ field k) : x ∈ indexToken field d tok k := by
  unfold indexToken storeSet
  split
  · exact h
  · by_cases hk : k = tok
    · subst hk; simp only [if_pos rfl]
      exact List.mem_append_left _ h
    · simpa [if_neg hk] using h

theorem mem_indexToken_self (field : PostingStore) (d : Doc) (tok : String) :
    d ∈ indexToken field d tok tok := by
  unfold indexToken storeSet
  split
  · next hcond => exact mem_of_getLast?_eq hcond.2
  · simp

theorem mem_foldl_indexToken_mono (d : Doc) :
    ∀ (tokens : List String) (field : PostingStore) (k : String) (x : Doc),
      x ∈ field k → x ∈ (tokens.foldl (fun fld token => indexToken fld d token) field) k := by
  intro tokens
  induction tokens with
  | nil => intro field k x h; simpa using h
  | cons t rest ih =>
    intro field k x h
    simpa using ih (indexToken field d t) k x (mem_indexToken_mono h)

theorem mem_foldl_indexToken_self (d : Doc) :
    ∀ (tokens : List String) (field : PostingStore) (T : String), T ∈ tokens →
      d ∈ (tokens.foldl (fun fld token => indexToken fld d token) field) T := by
  intro tokens
  induction tokens with
  | nil => intro field T h; cases h
  | cons t rest ih =>
    intro field T h
    rcases List.mem_cons.mp h with rfl | h
    · simpa using mem_foldl_indexToken_mono d rest _ T d (mem_indexToken_self field d T)
    · simpa using ih (indexToken field d t) T h

/-- Both branches of `indexField` only ever append to posting lists, so
membership is preserved. -/
theorem indexField_mono {stemmer : Stemmer} {text : String} {field : PostingStore} {d : Doc}
    {tokenizeField : Bool} {k : String} {x : Doc} (h : x ∈ field k) :
    x ∈ (indexField stemmer text field d tokenizeField).1 k := by
  unfold indexField
  split
  · cases hp : processText stemmer text with
    | error e => simpa [hp] using h
    | ok tokens => simpa [hp] using mem_foldl_indexToken_mono d tokens field k x h
  · unfold storeSet
    by_cases hk : k = text
    · subst hk; simp only [if_pos rfl]
      exact List.mem_append_left _ h
    · simpa [if_neg hk] using h

/-- A successfully tokenized `indexField` call leaves the document present
under every token of the normalized field value. -/
theorem indexField_tokenized_mem {stemmer : Stemmer} {text : String} {field : PostingStore}
    {d : Doc} {tokens : List String} (hp : processText stemmer text = .ok tokens)
    {T : String} (hT : T ∈ tokens) :
    d ∈ (indexField stemmer text field d true).1 T := by
  unfold indexField
  simp only [if_pos rfl, hp]
  exact mem_foldl_indexToken_self d tokens field T hT

/-- A failing `indexField` call leaves the posting store unchanged (the
error arises in `processText`, before any mutation). -/
theorem indexField_error_unchanged {stemmer : Stemmer} {text : String} {field : PostingStore}
    {d : Doc} {tokenizeField : Bool} {e : String}
    (h : (indexField stemmer text field d tokenizeField).2 = some e) :
    (indexField stemmer text field d tokenizeField).1 = field := by
  cases tokenizeField with
  | false => simp [indexField] at h
  | true =>
    cases hp : processText stemmer text with
    | error e2 => simp [indexField, hp]
    | ok tokens => simp [indexField, hp] at h

theorem indexMaintainers_mono {stemmer : Stemmer} {ref : Doc} :
    ∀ (maintainers : List Maintainer) (names emails : PostingStore) (k : String) (x : Doc),
      (x ∈ names k → x ∈ (indexMaintainers stemmer maintainers ref names emails).1 k) ∧
      (x ∈ emails k → x ∈ (indexMaintainers stemmer maintainers ref names emails).2.1 k) := by
  intro maintainers
  induction maintainers with
  | nil => intro names emails k x; exact ⟨id, id⟩
  | cons mt rest ih =>
    intro names emails k x
    unfold indexMaintainers
    dsimp only
    cases h1 : (indexField stemmer mt.Name names ref true).2 with
    | some e => exact ⟨fun h => indexField_mono h, id⟩
    | none =>
      cases h2 : (indexField stemmer mt.Email emails ref true).2 with
      | some e => exact ⟨fun h => indexField_mono h, fun h => indexField_mono h⟩
      | none =>
        exact ⟨fun h => (ih _ _ k x).1 (indexField_mono h),
               fun h => (ih _ _ k x).2 (indexField_mono h)⟩

/-- When the maintainer loop completes without error, the document is
present under every token of every maintainer's normalized name (in the
name store) and email (in the email store). -/
theorem indexMaintainers_mem {stemmer : Stemmer} {ref : Doc} :
    ∀ (maintainers : List Maintainer) (names emails : PostingStore),
      (indexMaintainers stemmer maintainers ref names emails).2.2 = none →
      ∀ mt ∈ maintainers,
        (∀ tokens, processText stemmer mt.Name = .ok tokens → ∀ T ∈ tokens,
            ref ∈ (indexMaintainers stemmer maintainers ref names emails).1 T) ∧
        (∀ tokens, processText stemmer mt.Email = .ok tokens → ∀ T ∈ tokens,
            ref ∈ (indexMaintainers stemmer maintainers ref names emails).2.1 T) := by
  intro maintainers
  induction maintainers with
  | nil => intro names emails _ mt hmt; cases hmt
  | cons mt0 rest ih =>
    intro names emails hok mt hmt
    unfold indexMaintainers at hok ⊢
    dsimp only at hok ⊢
    cases h1 : (indexField stemmer mt0.Name names ref true).2 with
    | some e => rw [h1] at hok; simp at hok
    | none =>
      rw [h1] at hok
      dsimp only at hok
      cases h2 : (indexField stemmer mt0.Email emails ref true).2 with
      | some e => rw [h2] at hok; simp at hok
      | none =>
        rw [h2] at hok
        dsimp only at hok
        rcases List.mem_cons.mp hmt with rfl | hmt
        · constructor
          · intro tokens hp T hT
            exact (indexMaintainers_mono rest _ _ T ref).1
              (indexField_tokenized_mem hp hT)
          · intro tokens hp T hT
            exact (indexMaintainers_mono rest _ _ T ref).2
              (indexField_tokenized_mem hp hT)
        · exact ih _ _ hok mt hmt

/-- Decomposition of a successful `AddMetadata` call: every posting store
of the result is the result of indexing the corresponding field value
into the corresponding store of the input index, and the maintainer loop
completed without error. -/
theorem AddMetadata_ok {stemmer : Stemmer} {m : Metadata} {ref : Doc} {s s2 : Index}
    (h : AddMetadata stemmer m ref s = (s2, none)) :
    s2.title = (indexField stemmer m.Title s.title ref true).1 ∧
    s2.version = (indexField stemmer m.Version s.version ref false).1 ∧
    s2.maintainerName =
      (indexMaintainers stemmer m.Maintainers ref s.maintainerName s.maintainerEmail).1 ∧
    s2.maintainerEmail =
      (indexMaintainers stemmer m.Maintainers ref s.maintainerName s.maintainerEmail).2.1 ∧
    (indexMaintainers stemmer m.Maintainers ref s.maintainerName s.maintainerEmail).2.2 = none ∧
    s2.company = (indexField stemmer m.Company s.company ref true).1 ∧
    s2.website = (indexField stemmer m.Website s.website ref true).1 ∧
    s2.source = (indexField stemmer m.Source s.source ref true).1 ∧
    s2.license = (indexField stemmer m.License s.license ref true).1 ∧
    s2.description = (indexField stemmer m.Description s.description ref true).1 := by
  unfold AddMetadata at h
  dsimp only at h
  cases h1 : (indexField stemmer m.Title s.title ref true).2 with
  | some e => rw [h1] at h; simp at h
  | none =>
  rw [h1] at h; dsimp only at h
  cases h2 : (indexField stemmer m.Version s.version ref false).2 with
  | some e => rw [h2] at h; simp at h
  | none =>
  rw [h2] at h; dsimp only at h
  cases h3 : (indexMaintainers stemmer m.Maintainers ref s.maintainerName s.maintainerEmail).2.2 with
  | some e => rw [h3] at h; simp at h
  | none =>
  rw [h3] at h; dsimp only at h
  cases h4 : (indexField stemmer m.Company s.company ref true).2 with
  | some e => rw [h4] at h; simp at h
  | none =>
  rw [h4] at h; dsimp only at h
  cases h5 : (indexField stemmer m.Website s.website ref true).2 with
  | some e => rw [h5] at h; simp at h
  | none =>
  rw [h5] at h; dsimp only at h
  cases h6 : (indexField stemmer m.Source s.source ref true).2 with
  | some e => rw [h6] at h; simp at h
  | none =>
  rw [h6] at h; dsimp only at h
  cases h7 : (indexField stemmer m.License s.license ref true).2 with
  | some e => rw [h7] at h; simp at h
  | none =>
  rw [h7] at h; dsimp only at h
  cases h8 : (indexField stemmer m.Description s.description ref true).2 with
  | some e => rw [h8] at h; simp at h
  | none =>
  rw [h8] at h; dsimp only at h
  rw [Prod.mk.injEq] at h
  obtain ⟨hs, -⟩ := h
  subst hs
  exact ⟨rfl, rfl, rfl, rfl, rfl, rfl, rfl, rfl, rfl, rfl⟩

/-- On any failing `AddMetadata` call the description store â the last
field processed â is untouched: either the failure happened earlier (so
the description step never ran) or the description normalization itself
failed before mutating the store. -/
theorem AddMetadata_error_description {stemmer : Stemmer} {m : Metadata} {ref : Doc}
    {s s2 : Index} {e : String} (h : AddMetadata stemmer m ref s = (s2, some e)) :
    s2.description = s.description := by
  unfold AddMetadata at h
  dsimp only at h
  cases h1 : (indexField stemmer m.Title s.title ref true).2 with
  | some e1 =>
    rw [h1] at h; dsimp only at h
    rw [Prod.mk.injEq] at h; obtain ⟨hs, -⟩ := h; subst hs; rfl
  | none =>
  rw [h1] at h; dsimp only at h
  cases h2 : (indexField stemmer m.Version s.version ref false).2 with
  | some e2 =>
    rw [h2] at h; dsimp only at h
    rw [Prod.mk.injEq] at h; obtain ⟨hs, -⟩ := h; subst hs; rfl
  | none =>
  rw [h2] at h; dsimp only at h
  cases h3 : (indexMaintainers stemmer m.Maintainers ref s.maintainerName s.maintainerEmail).2.2 with
  | some e3 =>
    rw [h3] at h; dsimp only at h
    rw [Prod.mk.injEq] at h; obtain ⟨hs, -⟩ := h; subst hs; rfl
  | none =>
  rw [h3] at h; dsimp only at h
  cases h4 : (indexField stemmer m.Company s.company ref true).2 with
  | some e4 =>
    rw [h4] at h; dsimp only at h
    rw [Prod.mk.injEq] at h; obtain ⟨hs, -⟩ := h; subst hs; rfl
  | none =>
  rw [h4] at h; dsimp only at h
  cases h5 : (indexField stemmer m.Website s.website ref true).2 with
  | some e5 =>
    rw [h5] at h; dsimp only at h
    rw [Prod.mk.injEq] at h; obtain ⟨hs, -⟩ := h; subst hs; rfl
  | none =>
  rw [h5] at h; dsimp only at h
  cases h6 : (indexField stemmer m.Source s.source ref true).2 with
  | some e6 =>
    rw [h6] at h; dsimp only at h
    rw [Prod.mk.injEq] at h; obtain ⟨hs, -⟩ := h; subst hs; rfl
  | none =>
  rw [h6] at h; dsimp only at h
  cases h7 : (indexField stemmer m.License s.license ref true).2 with
  | some e7 =>
    rw [h7] at h; dsimp only at h
    rw [Prod.mk.injEq] at h; obtain ⟨hs, -⟩ := h; subst hs; rfl
  | none =>
  rw [h7] at h; dsimp only at h
  cases h8 : (indexField stemmer m.Description s.description ref true).2 with
  | some e8 =>
    rw [h8] at h; dsimp only at h
    rw [Prod.mk.injEq] at h; obtain ⟨hs, -⟩ := h; subst hs
    exact indexField_error_unchanged h8
  | none =>
  rw [h8] at h; dsimp only at h
  simp at h

/-! ### Query-side lemmas -/

/-- Searching the version attribute is a verbatim single-key lookup. -/
theorem retrieveDocuments_version {stemmer : Stemmer} (s : Index) (searchInput : String) :
    retrieveDocuments stemmer s "version" searchInput = .ok (s.version searchInput) := by
  unfold retrieveDocuments retrieveResultSet
  simp only [String.reduceEq, reduceIte, mapGet, mapSet, List.nil_append]
  rw [matchAllTerms_singleton]

/-- The attribute/value pairs that `AddMetadata` indexes through the
tokenized path, in processing order. -/
def tokenizedFieldValues (m : Metadata) : List (String × String) :=
  [("title", m.Title)]
    ++ (m.Maintainers.map (fun maintainer =>
          [("maintainer_name", maintainer.Name), ("maintainer_email", maintainer.Email)])).flatten
    ++ [("company", m.Company), ("website", m.Website), ("source", m.Source),
        ("license", m.License), ("description", m.Description)]

/-- A query whose normalization returns its own single token reduces the
tokenized search path to one posting-store lookup. -/
theorem retrieveDocuments_tokenized_fixed {stemmer : Stemmer} {T : String} {s : Index}
    {attr : String} {field : PostingStore}
    (hattr : (attr = "title" ∧ field = s.title) ∨
      (attr = "maintainer_name" ∧ field = s.maintainerName) ∨
      (attr = "maintainer_email" ∧ field = s.maintainerEmail) ∨
      (attr = "company" ∧ field = s.company) ∨
      (attr = "website" ∧ field = s.website) ∨
      (attr = "source" ∧ field = s.source) ∨
      (attr = "license" ∧ field = s.license) ∨
      (attr = "description" ∧ field = s.description))
    (hfix : processText stemmer T = .ok [T]) :
    retrieveDocuments stemmer s attr T = .ok (field T) := by
  rcases hattr with hb | hb | hb | hb | hb | hb | hb | hb <;>
  · obtain ⟨rfl, rfl⟩ := hb
    unfold retrieveDocuments retrieveResultSet getResultsByToken
    simp only [String.reduceEq, reduceIte]
    rw [hfix]
    simp only [List.foldl_cons, List.foldl_nil, mapSet]
    rw [matchAllTerms_singleton]

/-- Value of a successful retrieval (used only to phrase the decomposition
of the lookup loop). -/
def okValue : Except String (List Doc) → List Doc
  | .ok l => l
  | .error _ => []

/-- Decomposition of a successful lookup loop over attribute/value pairs
with distinct attribute names: the accumulated result set extends the
initial one with one entry per pair, and every per-pair retrieval
succeeded. -/
theorem lookupResultSet_ok_eq {stemmer : Stemmer} {s : Index} :
    ∀ (M : List (String × String)) (rs0 rs : ResultSet),
      (∀ kv ∈ M, kv.1 ∉ rs0.map Prod.fst) → (M.map Prod.fst).Nodup →
      lookupResultSet stemmer s M rs0 = .ok rs →
      rs = rs0 ++ M.map (fun kv => (kv.1, okValue (retrieveDocuments stemmer s kv.1 kv.2))) ∧
      ∀ kv ∈ M, ∃ r, retrieveDocuments stemmer s kv.1 kv.2 = .ok r := by
  intro M
  induction M with
  | nil =>
    intro rs0 rs _ _ h
    refine ⟨?_, by simp⟩
    injection h with h
    simp [h.symm]
  | cons kv rest ih =>
    intro rs0 rs hdisj hnd h
    obtain ⟨k, v⟩ := kv
    unfold lookupResultSet at h
    cases hr : retrieveDocuments stemmer s k v with
    | error e => rw [hr] at h; cases h
    | ok result =>
      rw [hr] at h
      dsimp only at h
      have hknotin : k ∉ rs0.map Prod.fst :=
        hdisj (k, v) (List.mem_cons_self _ _)
      rw [mapSet_of_not_mem result hknotin] at h
      simp only [List.map_cons, List.nodup_cons] at hnd
      have hdisj2 : ∀ kv2 ∈ rest, kv2.1 ∉ (rs0 ++ [(k, result)]).map Prod.fst := by
        intro kv2 hkv2
        simp only [List.map_append, List.mem_append, List.map_cons, List.map_nil,
          List.mem_singleton, not_or]
        refine ⟨hdisj kv2 (List.mem_cons_of_mem _ hkv2), ?_⟩
        intro hk
        exact hnd.1 (hk ▸ List.mem_map.mpr ⟨kv2, hkv2, rfl⟩)
      obtain ⟨heq, hall⟩ := ih (rs0 ++ [(k, result)]) rs hdisj2 hnd.2 h
      constructor
      · rw [heq, List.append_assoc]
        simp [hr, okValue]
      · intro kv2 hkv2
        rcases List.mem_cons.mp hkv2 with heq2 | hkv2
        · cases heq2; exact ⟨result, hr⟩
        · exact hall kv2 hkv2

/-- Membership characterization of a successful multi-field lookup: a
document is returned exactly when the query map is non-empty and the
document is in every per-attribute search result. -/
theorem mem_LookupMetadata {stemmer : Stemmer} {s : Index} {M : List (String × String)}
    (hnd : (M.map Prod.fst).Nodup) {L : List Doc}
    (h : LookupMetadata stemmer s M = .ok L) (d : Doc) :
    d ∈ L ↔ M ≠ [] ∧ ∀ kv ∈ M, ∃ r,
      retrieveDocuments stemmer s kv.1 kv.2 = .ok r ∧ d ∈ r := by
  unfold LookupMetadata at h
  cases hrs : lookupResultSet stemmer s M [] with
  | error e => rw [hrs] at h; cases h
  | ok rs =>
    rw [hrs] at h
    dsimp only at h
    injection h with h
    subst h
    obtain ⟨heq, hall⟩ := lookupResultSet_ok_eq M [] rs (by simp) hnd hrs
    subst heq
    rw [mem_matchAllTerms]
    simp only [List.nil_append]
    have hkeys : (M.map (fun kv => (kv.1, okValue (retrieveDocuments stemmer s kv.1 kv.2)))).map
        Prod.fst = M.map Prod.fst := by simp
    have hget : ∀ kv ∈ M, ∀ r, retrieveDocuments stemmer s kv.1 kv.2 = .ok r →
        mapGet (M.map (fun kv => (kv.1, okValue (retrieveDocuments stemmer s kv.1 kv.2)))) kv.1
          = r := by
      intro kv hkv r hr
      have hm := mapGet_of_nodup (by rw [hkeys]; exact hnd)
        (List.mem_map.mpr ⟨kv, hkv, rfl⟩)
      rw [hm, hr]
      rfl
    constructor
    · rintro ⟨hne, hmem⟩
      refine ⟨fun hM => hne (by rw [hM]; rfl), ?_⟩
      intro kv hkv
      obtain ⟨r, hr⟩ := hall kv hkv
      refine ⟨r, hr, ?_⟩
      have hin : kv.1 ∈ (M.map (fun kv =>
          (kv.1, okValue (retrieveDocuments stemmer s kv.1 kv.2)))).map Prod.fst := by
        rw [hkeys]
        exact List.mem_map.mpr ⟨kv, hkv, rfl⟩
      have hd := hmem kv.1 hin
      rwa [hget kv hkv r hr] at hd
    · rintro ⟨hne, hforall⟩
      constructor
      · intro hnil
        rw [List.map_eq_nil_iff] at hnil
        exact hne hnil
      · intro k hk
        rw [hkeys] at hk
        obtain ⟨kv, hkv, rfl⟩ := List.mem_map.mp hk
        obtain ⟨r, hr, hdr⟩ := hforall kv hkv
        rwa [hget kv hkv r hr]

/-! ### Early-exit variant of the reduction (from the specification) -/

/-- Modelled from the spec: the loop of the early-exit reduction variant,
which short-circuits to the empty list as soon as the running
intersection is empty. -/
def earlyLoop (resultSet : ResultSet) : List String → List Doc → List Doc
  | [], result => result
  | k :: rest, result =>
    if result = [] then []
    else earlyLoop resultSet rest (intersection result (mapGet resultSet k))

/-- Modelled from the spec: the early-exit reduction — identical to
`matchAllTerms` except that the pairwise-intersection loop stops with the
empty list once any running intersection is empty. -/
def matchAllTermsEarly (resultSet : ResultSet) : List Doc :=
  match resultSet with
  | [] => []
  | [(k0, v0)] => mapGet [(k0, v0)] k0
  | (k0, v0) :: (k1, v1) :: rest =>
    let resultSet := (k0, v0) :: (k1, v1) :: rest
    earlyLoop resultSet (rest.map Prod.fst)
      (intersection (mapGet resultSet k0) (mapGet resultSet k1))

theorem intersection_nil_left (l : List Doc) : intersection [] l = [] := by
  simp [intersection]

theorem foldl_inter_nil (rs : ResultSet) :
    ∀ ks : List String,
      ks.foldl (fun result k => intersection result (mapGet rs k)) [] = [] := by
  intro ks
  induction ks with
  | nil => rfl
  | cons k rest ih => simpa [intersection_nil_left] using ih

theorem earlyLoop_eq_foldl (rs : ResultSet) :
    ∀ (ks : List String) (result : List Doc),
      earlyLoop rs ks result =
        ks.foldl (fun result k => intersection result (mapGet rs k)) result := by
  intro ks
  induction ks with
  | nil => intro result; rfl
  | cons k rest ih =>
    intro result
    unfold earlyLoop
    by_cases h : result = []
    · subst h
      rw [if_pos rfl, List.foldl_cons, intersection_nil_left, foldl_inter_nil]
    · rw [if_neg h, List.foldl_cons, ih]

theorem foldl_keys_eq_values (rs : ResultSet) :
    ∀ (l : List (String × List Doc)), (∀ p ∈ l, mapGet rs p.1 = p.2) →
      ∀ init, (l.map Prod.fst).foldl (fun result k => intersection result (mapGet rs k)) init
        = (l.map Prod.snd).foldl intersection init := by
  intro l
  induction l with
  | nil => intro _ init; rfl
  | cons p rest ih =>
    intro hp init
    simp only [List.map_cons, List.foldl_cons]
    rw [hp p (List.mem_cons_self _ _), ih (fun q hq => hp q (List.mem_cons_of_mem _ hq))]

/-! ### Adjacency invariant lemmas -/

theorem chain'_ne_indexToken {field : PostingStore} {d : Doc} {tok : String}
    (h : ∀ k, List.Chain' (· ≠ ·) (field k)) :
    ∀ k, List.Chain' (· ≠ ·) (indexToken field d tok k) := by
  intro k
  unfold indexToken storeSet
  split
  · exact h k
  · next hcond =>
    dsimp only
    by_cases hk : k = tok
    · subst hk
      rw [if_pos rfl, List.chain'_append]
      refine ⟨h k, List.chain'_singleton d, ?_⟩
      intro x hx y hy
      simp only [List.head?_cons, Option.mem_def, Option.some.injEq] at hy
      subst hy
      intro hxd
      subst hxd
      rw [Option.mem_def] at hx
      exact hcond ⟨List.length_pos.mpr (List.ne_nil_of_mem (mem_of_getLast?_eq hx)), hx⟩
    · rw [if_neg hk]
      exact h k

theorem chain'_ne_foldl_indexToken (d : Doc) :
    ∀ (tokens : List String) (field : PostingStore),
      (∀ k, List.Chain' (· ≠ ·) (field k)) →
      ∀ k, List.Chain' (· ≠ ·)
        ((tokens.foldl (fun fld token => indexToken fld d token) field) k) := by
  intro tokens
  induction tokens with
  | nil => intro field h k; exact h k
  | cons t rest ih =>
    intro field h k
    simpa using ih (indexToken field d t) (chain'_ne_indexToken h) k

/-! ### Unknown-attribute lemmas -/

theorem retrieveDocuments_unknown {stemmer : Stemmer} {s : Index} {attr q : String}
    (h : attr ∉ recognizedAttrs) :
    retrieveDocuments stemmer s attr q =
      .error "cannot retrieve documents by unknown attribute type" := by
  simp only [recognizedAttrs, List.mem_cons, List.not_mem_nil, or_false, not_or] at h
  obtain ⟨h1, h2, h3, h4, h5, h6, h7, h8, h9⟩ := h
  unfold retrieveDocuments retrieveResultSet
  rw [if_neg h1, if_neg h2, if_neg h3, if_neg h4, if_neg h5, if_neg h6, if_neg h7,
    if_neg h8, if_neg h9]

theorem lookupResultSet_error_of_unknown {stemmer : Stemmer} {s : Index} :
    ∀ (M : List (String × String)) (rs0 : ResultSet) (k q : String),
      (k, q) ∈ M → k ∉ recognizedAttrs →
      ∃ e, lookupResultSet stemmer s M rs0 = .error e := by
  intro M
  induction M with
  | nil => intro rs0 k q h _; cases h
  | cons kv rest ih =>
    intro rs0 k q hmem hk
    obtain ⟨k0, v0⟩ := kv
    unfold lookupResultSet
    rcases List.mem_cons.mp hmem with heq | hmem
    · cases heq
      rw [retrieveDocuments_unknown hk]
      exact ⟨_, rfl⟩
    · cases hr : retrieveDocuments stemmer s k0 v0 with
      | error e => exact ⟨e, rfl⟩
      | ok result =>
        obtain ⟨e, he⟩ := ih (mapSet rs0 k0 result) k q hmem hk
        exact ⟨e, he⟩

/-! ### Concrete instances used to evaluate the embedding -/

/-- A stemmer that never fails and stems every token to itself; agrees with
the snowball English stemmer on every concrete token used below, all of
which are already stems. -/
def idStemmer : Stemmer := fun token => .ok token

/-- A stemmer agreeing with the snowball English stemmer on the concrete
tokens of the round-trip counterexample: Porter2 strips the plural
suffix, stemming "its" to "it", and fixes the other tokens involved. -/
def porterIts : Stemmer := fun token => .ok (if token = "its" then "it" else token)

/-- A stemmer failing on exactly one token, exercising the error path of
the normalization pipeline. -/
def failStemmer : Stemmer :=
  fun token => if token = "badco" then .error "boom" else .ok token

/-- A concrete document used by several evaluations. -/
def sampleMetadata : Metadata :=
  { Title := "app one", Version := "1.0.0",
    Maintainers := [{ Name := "bill bob", Email := "bill at mail" }],
    Company := "bigcorp", Website := "site", Source := "repo", License := "mit",
    Description := "quick fox" }

/-- The store after indexing `sampleMetadata` as document 0. -/
def addedSample : Index := (AddMetadata idStemmer sampleMetadata 0 NewStorage).1

/-- A document whose title "its" normalizes to the single token "it". -/
def cexMetadataC1 : Metadata :=
  { Title := "its", Version := "1.0.0", Maintainers := [],
    Company := "co", Website := "w", Source := "s", License := "l", Description := "d" }

/-- A document whose company value fails to stem under `failStemmer`, while
its earlier fields (title, version) stem fine. -/
def cexMetadataC2 : Metadata :=
  { Title := "apptitle", Version := "1.0.0", Maintainers := [],
    Company := "badco", Website := "w", Source := "s", License := "l", Description := "d" }


/-! ### Claim theorems -/

/-- C3: stopword removal drops a token exactly when it equals an entry of
the 15-word list — but because the list's pronoun entry is the
capitalized string "I" and removal runs after lowercasing, the lowercase
token "i" produced by the word "I" is NOT dropped: the "I" entry is dead
code, contradicting the claimed case-insensitive-by-construction
behavior. -/
theorem C3_stopword_removal :
    (∀ (tokens : List String) (token : String),
        token ∈ removeCommonWords tokens ↔ token ∈ tokens ∧ token ∉ commonWords) ∧
    "I" ∈ commonWords ∧
    removeCommonWords (toLowercase (tokenize "I")) = ["i"] := by
  refine ⟨?_, by decide, by decide⟩
  intro tokens token
  simp [removeCommonWords, List.mem_filter]

/-- C10: a multi-field lookup with an empty query mapping returns the
empty list and no error, for every store state and stemmer. -/
theorem C10_empty_lookup (stemmer : Stemmer) (s : Index) :
    LookupMetadata stemmer s [] = .ok [] := rfl

/-- C4: query reduction special cases — zero keys give the empty list, one
key gives that key's full posting list, two or more (distinct) keys give
the left-to-right pairwise intersection of their posting lists, and the
early-exit-on-empty variant returns the same result as the exhaustive
reduction on every result set. -/
theorem C4_query_reduction_cases :
    matchAllTerms ([] : ResultSet) = [] ∧
    (∀ (k : String) (v : List Doc), matchAllTerms [(k, v)] = v) ∧
    (∀ (k0 k1 : String) (v0 v1 : List Doc) (rest : List (String × List Doc)),
        (((k0, v0) :: (k1, v1) :: rest : ResultSet).map Prod.fst).Nodup →
        matchAllTerms ((k0, v0) :: (k1, v1) :: rest) =
          (rest.map Prod.snd).foldl intersection (intersection v0 v1)) ∧
    (∀ rs : ResultSet, matchAllTermsEarly rs = matchAllTerms rs) := by
  refine ⟨rfl, matchAllTerms_singleton, ?_, ?_⟩
  · intro k0 k1 v0 v1 rest hnd
    have hrs : ∀ p ∈ ((k0, v0) :: (k1, v1) :: rest : ResultSet),
        mapGet ((k0, v0) :: (k1, v1) :: rest) p.1 = p.2 :=
      fun p hp => mapGet_of_nodup hnd hp
    unfold matchAllTerms
    dsimp only
    rw [foldl_keys_eq_values _ rest
        (fun p hp => hrs p (List.mem_cons_of_mem _ (List.mem_cons_of_mem _ hp))),
      hrs (k0, v0) (List.mem_cons_self _ _),
      hrs (k1, v1) (List.mem_cons_of_mem _ (List.mem_cons_self _ _))]
  · intro rs
    match rs with
    | [] => rfl
    | [(k0, v0)] => rfl
    | (k0, v0) :: (k1, v1) :: rest =>
      unfold matchAllTermsEarly matchAllTerms
      dsimp only
      rw [earlyLoop_eq_foldl]

theorem C4_query_reduction_cases_witness :
    matchAllTerms [("a", [0, 1]), ("b", [1, 2]), ("c", [1])] =
      ([("c", [1])].map Prod.snd).foldl intersection (intersection [0, 1] [1, 2]) :=
  C4_query_reduction_cases.2.2.1 "a" "b" [0, 1] [1, 2] [("c", [1])] (by decide)

/-- C5: tokenized indexing preserves the no-adjacent-duplicates invariant
of every posting list (the duplicate check only compares against the last
element), while a document separated by another document's insertion can
still occur twice in the same list, as the concrete run producing
[0, 1, 0] shows. -/
theorem C5_adjacency_only_dedup :
    (∀ (stemmer : Stemmer) (text : String) (field : PostingStore) (d : Doc),
        (∀ k, List.Chain' (· ≠ ·) (field k)) →
        ∀ k, List.Chain' (· ≠ ·) ((indexField stemmer text field d true).1 k)) ∧
    ((indexField idStemmer "tok"
      ((indexField idStemmer "tok"
        ((indexField idStemmer "tok" emptyStore 0 true).1) 1 true).1) 0 true).1) "tok"
      = [0, 1, 0] := by
  constructor
  · intro stemmer text field d hchain k
    unfold indexField
    rw [if_pos rfl]
    cases hp : processText stemmer text with
    | error e => exact hchain k
    | ok tokens => exact chain'_ne_foldl_indexToken d tokens field hchain k
  · decide

theorem C5_adjacency_only_dedup_witness :
    List.Chain' (· ≠ ·) ((indexField idStemmer "tok tok" emptyStore 0 true).1 "tok") :=
  C5_adjacency_only_dedup.1 idStemmer "tok tok" emptyStore 0 (fun _ => List.chain'_nil) "tok"

/-- C6: the version field is exact-match — indexing appends the document
unconditionally under the literal version string and touches no other
key, searching the version attribute is a verbatim single-key lookup of
the raw query, and in particular the prefix "1.0" of an indexed version
"1.0.0" returns the empty list. -/
theorem C6_version_exact_match :
    (∀ (stemmer : Stemmer) (m : Metadata) (ref : Doc) (s s2 : Index),
        AddMetadata stemmer m ref s = (s2, none) →
        s2.version m.Version = s.version m.Version ++ [ref] ∧
        ∀ k, k ≠ m.Version → s2.version k = s.version k) ∧
    (∀ (stemmer : Stemmer) (s : Index) (q : String),
        retrieveDocuments stemmer s "version" q = .ok (s.version q)) ∧
    retrieveDocuments idStemmer addedSample "version" "1.0.0" = .ok [0] ∧
    retrieveDocuments idStemmer addedSample "version" "1.0" = .ok [] := by
  refine ⟨?_, fun stemmer s q => retrieveDocuments_version s q, by decide, by decide⟩
  intro stemmer m ref s s2 hadd
  obtain ⟨-, hv, -⟩ := AddMetadata_ok hadd
  rw [hv]
  constructor
  · simp [indexField, storeSet]
  · intro k hk
    simp [indexField, storeSet, hk]

theorem C6_version_exact_match_witness :
    addedSample.version "1.0.0" = NewStorage.version "1.0.0" ++ [0] :=
  (C6_version_exact_match.1 idStemmer sampleMetadata 0 NewStorage addedSample rfl).1


/-- Every recognized attribute search succeeds whenever the query
normalizes (the version branch needs no normalization at all). -/
theorem retrieveDocuments_recognized_ok {stemmer : Stemmer} {s : Index} {attr q : String}
    (hattr : attr ∈ recognizedAttrs)
    (hq : attr = "version" ∨ ∃ tokens, processText stemmer q = .ok tokens) :
    ∃ l, retrieveDocuments stemmer s attr q = .ok l := by
  simp only [recognizedAttrs, List.mem_cons, List.not_mem_nil, or_false] at hattr
  have hget : ∀ field : PostingStore, (∃ tokens, processText stemmer q = .ok tokens) →
      ∃ rs, getResultsByToken stemmer q [] field = .ok rs := by
    rintro field ⟨tokens, hp⟩
    exact ⟨_, by unfold getResultsByToken; rw [hp]⟩
  have hq2 : attr ≠ "version" → ∃ tokens, processText stemmer q = .ok tokens := by
    intro hne
    rcases hq with heq | h
    · exact absurd heq hne
    · exact h
  rcases hattr with rfl | rfl | rfl | rfl | rfl | rfl | rfl | rfl | rfl
  · obtain ⟨rs, hrs⟩ := hget s.title (hq2 (by decide))
    exact ⟨matchAllTerms rs, by
      unfold retrieveDocuments retrieveResultSet
      simp only [String.reduceEq, reduceIte]
      rw [hrs]⟩
  · exact ⟨s.version q, retrieveDocuments_version s q⟩
  · obtain ⟨rs, hrs⟩ := hget s.maintainerName (hq2 (by decide))
    exact ⟨matchAllTerms rs, by
      unfold retrieveDocuments retrieveResultSet
      simp only [String.reduceEq, reduceIte]
      rw [hrs]⟩
  · obtain ⟨rs, hrs⟩ := hget s.maintainerEmail (hq2 (by decide))
    exact ⟨matchAllTerms rs, by
      unfold retrieveDocuments retrieveResultSet
      simp only [String.reduceEq, reduceIte]
      rw [hrs]⟩
  · obtain ⟨rs, hrs⟩ := hget s.company (hq2 (by decide))
    exact ⟨matchAllTerms rs, by
      unfold retrieveDocuments retrieveResultSet
      simp only [String.reduceEq, reduceIte]
      rw [hrs]⟩
  · obtain ⟨rs, hrs⟩ := hget s.website (hq2 (by decide))
    exact ⟨matchAllTerms rs, by
      unfold retrieveDocuments retrieveResultSet
      simp only [String.reduceEq, reduceIte]
      rw [hrs]⟩
  · obtain ⟨rs, hrs⟩ := hget s.source (hq2 (by decide))
    exact ⟨matchAllTerms rs, by
      unfold retrieveDocuments retrieveResultSet
      simp only [String.reduceEq, reduceIte]
      rw [hrs]⟩
  · obtain ⟨rs, hrs⟩ := hget s.license (hq2 (by decide))
    exact ⟨matchAllTerms rs, by
      unfold retrieveDocuments retrieveResultSet
      simp only [String.reduceEq, reduceIte]
      rw [hrs]⟩
  · obtain ⟨rs, hrs⟩ := hget s.description (hq2 (by decide))
    exact ⟨matchAllTerms rs, by
      unfold retrieveDocuments retrieveResultSet
      simp only [String.reduceEq, reduceIte]
      rw [hrs]⟩

/-- C7: an attribute name outside the nine recognized ones makes a
single-field search fail with the constant "unknown attribute" error
(independently of the store, so no posting store is consulted) and makes
a multi-field lookup containing it fail; for every recognized attribute a
search whose query normalizes returns a result list and no error — the
absence of matches is never an error. -/
theorem C7_error_taxonomy :
    (∀ (stemmer : Stemmer) (s : Index) (attr q : String), attr ∉ recognizedAttrs →
        retrieveDocuments stemmer s attr q =
          .error "cannot retrieve documents by unknown attribute type") ∧
    (∀ (stemmer : Stemmer) (s : Index) (attr q : String), attr ∈ recognizedAttrs →
        (attr = "version" ∨ ∃ tokens, processText stemmer q = .ok tokens) →
        ∃ l, retrieveDocuments stemmer s attr q = .ok l) ∧
    (∀ (stemmer : Stemmer) (s : Index) (M : List (String × String)) (attr q : String),
        (attr, q) ∈ M → attr ∉ recognizedAttrs →
        ∃ e, LookupMetadata stemmer s M = .error e) := by
  refine ⟨fun stemmer s attr q h => retrieveDocuments_unknown h,
    fun stemmer s attr q hattr hq => retrieveDocuments_recognized_ok hattr hq, ?_⟩
  intro stemmer s M attr q hmem hattr
  obtain ⟨e, he⟩ := lookupResultSet_error_of_unknown M [] attr q hmem hattr
  exact ⟨e, by unfold LookupMetadata; rw [he]⟩

theorem C7_error_taxonomy_witness :
    retrieveDocuments idStemmer addedSample "color" "x" =
      .error "cannot retrieve documents by unknown attribute type" ∧
    (∃ l, retrieveDocuments idStemmer addedSample "license" "mitx" = .ok l) ∧
    (∃ e, LookupMetadata idStemmer addedSample [("color", "x")] = .error e) :=
  ⟨C7_error_taxonomy.1 idStemmer addedSample "color" "x" (by decide),
   C7_error_taxonomy.2.1 idStemmer addedSample "license" "mitx" (by decide)
     (Or.inr ⟨["mitx"], by decide⟩),
   C7_error_taxonomy.2.2 idStemmer addedSample [("color", "x")] "color" "x" (by decide)
     (by decide)⟩


/-- C1 (counterexample): the index/search round trip fails as stated.  With
a stemmer behaving like the snowball English stemmer on these tokens
("its" stems to "it"), the title "its" indexes document 0 under the token
"it", yet searching the title field for the query text "it" returns the
empty list, because the search path re-normalizes the query and the
stopword filter drops "it". -/
theorem C1_roundtrip_counterexample :
    ("title", cexMetadataC1.Title) ∈ tokenizedFieldValues cexMetadataC1 ∧
    processText porterIts cexMetadataC1.Title = .ok ["it"] ∧
    AddMetadata porterIts cexMetadataC1 0 NewStorage =
      ((AddMetadata porterIts cexMetadataC1 0 NewStorage).1, none) ∧
    retrieveDocuments porterIts (AddMetadata porterIts cexMetadataC1 0 NewStorage).1
      "title" "it" = .ok [] := by
  exact ⟨by decide, by decide, rfl, by decide⟩

/-- C1 (amended): the round trip holds for every query token that the
search path re-normalizes to itself — after a successful AddMetadata, for
any tokenized field of the document and any token T of the normalized
field value such that processText maps T to exactly [T] (in particular T
is not dropped as a stopword and the stemmer fixes it), the single-field
search for T succeeds and its result contains the document. -/
theorem C1_roundtrip_fixed_token {stemmer : Stemmer} {m : Metadata} {ref : Doc}
    {s s2 : Index} {attr V : String} {tokens : List String} {T : String}
    (hadd : AddMetadata stemmer m ref s = (s2, none))
    (hfield : (attr, V) ∈ tokenizedFieldValues m)
    (hV : processText stemmer V = .ok tokens) (hT : T ∈ tokens)
    (hfix : processText stemmer T = .ok [T]) :
    ∃ l, retrieveDocuments stemmer s2 attr T = .ok l ∧ ref ∈ l := by
  obtain ⟨ht, hv, hmn, hme, hmok, hc, hw, hsrc, hlic, hdesc⟩ := AddMetadata_ok hadd
  simp only [tokenizedFieldValues, List.mem_append, List.mem_cons, List.not_mem_nil, or_false,
    List.mem_flatten, List.mem_map, Prod.mk.injEq] at hfield
  rcases hfield with ((hf | ⟨l, ⟨mt, hmt, hl⟩, hp⟩) | hf | hf | hf | hf | hf)
  · obtain ⟨rfl, rfl⟩ := hf
    refine ⟨s2.title T, retrieveDocuments_tokenized_fixed (Or.inl ⟨rfl, rfl⟩) hfix, ?_⟩
    rw [ht]
    exact indexField_tokenized_mem hV hT
  · subst hl
    simp only [List.mem_cons, List.not_mem_nil, or_false, Prod.mk.injEq] at hp
    rcases hp with hf | hf
    all_goals obtain ⟨rfl, rfl⟩ := hf
    · refine ⟨s2.maintainerName T,
        retrieveDocuments_tokenized_fixed (Or.inr (Or.inl ⟨rfl, rfl⟩)) hfix, ?_⟩
      rw [hmn]
      exact (indexMaintainers_mem m.Maintainers _ _ hmok mt hmt).1 tokens hV T hT
    · refine ⟨s2.maintainerEmail T,
        retrieveDocuments_tokenized_fixed (Or.inr (Or.inr (Or.inl ⟨rfl, rfl⟩))) hfix, ?_⟩
      rw [hme]
      exact (indexMaintainers_mem m.Maintainers _ _ hmok mt hmt).2 tokens hV T hT
  · obtain ⟨rfl, rfl⟩ := hf
    refine ⟨s2.company T,
      retrieveDocuments_tokenized_fixed (Or.inr (Or.inr (Or.inr (Or.inl ⟨rfl, rfl⟩)))) hfix, ?_⟩
    rw [hc]
    exact indexField_tokenized_mem hV hT
  · obtain ⟨rfl, rfl⟩ := hf
    refine ⟨s2.website T,
      retrieveDocuments_tokenized_fixed
        (Or.inr (Or.inr (Or.inr (Or.inr (Or.inl ⟨rfl, rfl⟩))))) hfix, ?_⟩
    rw [hw]
    exact indexField_tokenized_mem hV hT
  · obtain ⟨rfl, rfl⟩ := hf
    refine ⟨s2.source T,
      retrieveDocuments_tokenized_fixed
        (Or.inr (Or.inr (Or.inr (Or.inr (Or.inr (Or.inl ⟨rfl, rfl⟩)))))) hfix, ?_⟩
    rw [hsrc]
    exact indexField_tokenized_mem hV hT
  · obtain ⟨rfl, rfl⟩ := hf
    refine ⟨s2.license T,
      retrieveDocuments_tokenized_fixed
        (Or.inr (Or.inr (Or.inr (Or.inr (Or.inr (Or.inr (Or.inl ⟨rfl, rfl⟩))))))) hfix, ?_⟩
    rw [hlic]
    exact indexField_tokenized_mem hV hT
  · obtain ⟨rfl, rfl⟩ := hf
    refine ⟨s2.description T,
      retrieveDocuments_tokenized_fixed
        (Or.inr (Or.inr (Or.inr (Or.inr (Or.inr (Or.inr (Or.inr ⟨rfl, rfl⟩))))))) hfix, ?_⟩
    rw [hdesc]
    exact indexField_tokenized_mem hV hT

theorem C1_roundtrip_fixed_token_witness :
    ∃ l, retrieveDocuments idStemmer addedSample "title" "app" = .ok l ∧ 0 ∈ l :=
  @C1_roundtrip_fixed_token idStemmer sampleMetadata 0 NewStorage addedSample "title"
    "app one" ["app", "one"] "app" rfl (by decide) (by decide) (by decide) (by decide)

/-- C2 (counterexample): all-or-nothing indexing fails as stated.  With a
stemmer failing on the company token "badco", AddMetadata returns a
stemming error, yet the version and title posting stores were already
mutated by the failing call (they were empty before it). -/
theorem C2_atomicity_counterexample :
    (AddMetadata failStemmer cexMetadataC2 0 NewStorage).2 =
      some "unable to stem token: boom" ∧
    (AddMetadata failStemmer cexMetadataC2 0 NewStorage).1.version "1.0.0" = [0] ∧
    (AddMetadata failStemmer cexMetadataC2 0 NewStorage).1.title "apptitle" = [0] ∧
    NewStorage.version "1.0.0" = [] ∧
    NewStorage.title "apptitle" = [] := by
  exact ⟨rfl, by decide, by decide, rfl, rfl⟩

/-- C2 (amended): a failing AddMetadata call never indexes the document
into the description posting store — the last field processed — while
stores of fields processed before the failure keep their mutations (as
the counterexample's version store shows). -/
theorem C2_error_not_indexed_description {stemmer : Stemmer} {m : Metadata} {ref : Doc}
    {s s2 : Index} {e : String} (h : AddMetadata stemmer m ref s = (s2, some e)) :
    s2.description = s.description :=
  AddMetadata_error_description h

theorem C2_error_not_indexed_description_witness :
    (AddMetadata failStemmer cexMetadataC2 0 NewStorage).1.description =
      NewStorage.description :=
  @C2_error_not_indexed_description failStemmer cexMetadataC2 0 NewStorage
    (AddMetadata failStemmer cexMetadataC2 0 NewStorage).1 "unable to stem token: boom" rfl

/-- C8 (counterexample): monotonicity over query-map inclusion fails at the
empty map — the empty query map is included in every map, yet Lookup of
the empty map returns the empty list while Lookup of a larger map can
return documents. -/
theorem C8_monotone_counterexample :
    LookupMetadata idStemmer addedSample [("title", "app")] = .ok [0] ∧
    LookupMetadata idStemmer addedSample [] = .ok [] ∧
    0 ∉ ([] : List Doc) := by
  exact ⟨by decide, rfl, by decide⟩

/-- C8 (amended): for a NON-EMPTY query map M included in a query map M2
(both with distinct attribute names, as Go maps guarantee), every
document returned by Lookup(M2) is returned by Lookup(M); and a query map
containing an attribute whose own search result is empty makes the whole
lookup result empty. -/
theorem C8_lookup_narrowing :
    (∀ (stemmer : Stemmer) (s : Index) (M M2 : List (String × String)) (L L2 : List Doc)
        (d : Doc),
        (M.map Prod.fst).Nodup → (M2.map Prod.fst).Nodup → M ≠ [] →
        (∀ kv ∈ M, kv ∈ M2) →
        LookupMetadata stemmer s M = .ok L → LookupMetadata stemmer s M2 = .ok L2 →
        d ∈ L2 → d ∈ L) ∧
    (∀ (stemmer : Stemmer) (s : Index) (M : List (String × String)) (L : List Doc)
        (k q : String),
        (M.map Prod.fst).Nodup → (k, q) ∈ M →
        retrieveDocuments stemmer s k q = .ok [] →
        LookupMetadata stemmer s M = .ok L → L = []) := by
  constructor
  · intro stemmer s M M2 L L2 d hnd hnd2 hne hsub hM hM2 hd
    rw [mem_LookupMetadata hnd hM d]
    obtain ⟨-, hcon⟩ := (mem_LookupMetadata hnd2 hM2 d).mp hd
    exact ⟨hne, fun kv hkv => hcon kv (hsub kv hkv)⟩
  · intro stemmer s M L k q hnd hmem hempty hM
    rw [List.eq_nil_iff_forall_not_mem]
    intro d hd
    obtain ⟨-, hcon⟩ := (mem_LookupMetadata hnd hM d).mp hd
    obtain ⟨r, hr, hdr⟩ := hcon (k, q) hmem
    rw [hempty] at hr
    injection hr with hr
    subst hr
    exact absurd hdr (List.not_mem_nil d)

theorem C8_lookup_narrowing_witness :
    0 ∈ ([0] : List Doc) ∧ ([] : List Doc) = [] :=
  ⟨C8_lookup_narrowing.1 idStemmer addedSample [("title", "app")]
      [("title", "app"), ("company", "bigcorp")] [0] [0] 0 (by decide) (by decide)
      (by decide) (by decide) (by decide) (by decide) (by decide),
   C8_lookup_narrowing.2 idStemmer addedSample [("description", "absent")] [] "description"
      "absent" (by decide) (by decide) (by decide) (by decide)⟩

end YamlApi
